import Mathlib

/- Verification of the HSS (Histogram Sort with Sampling) parallel sorter
implemented in `src/hss.cpp`.

Shallow embedding conventions:
- `long long` values are modelled as `Int`, `size_t`/`int` counters as `Nat`
  (with an explicit `% 2 ^ 64` where `size_t` wraparound matters);
- `std::vector<long long>` is modelled as `List Int`, except inside the
  leader's splitter-selection phase: there the program calls `clear()` on
  `global_config.splitters` and then indexes into the *cleared* vector
  (`global_config.splitters[idx]` at line 126) and pushes into it, so its
  behaviour depends on the underlying storage surviving `clear()`.  That
  vector is modelled as a buffer-plus-logical-size pair (`CVec`): `clear`
  resets the size and keeps the buffer, `operator[]` reads the buffer (the
  behaviour of the compiled program; per the C++ standard such a read is
  undefined), `push_back` overwrites the slot at the logical size or grows
  the buffer, and `back()` on a logically empty vector is a genuine
  out-of-range access, modelled as `none`;
- `std::sort` on integer values is modelled by an executable insertion
  sort (`sortI`); since the sorted permutation of a list of integers is
  unique, this is an exact model even though `std::sort` is unstable;
- fallible steps (out-of-range accesses / undefined behaviour) make the
  whole run return `none`;
- the seeded `std::sample` draw is kept abstract as an oracle parameter:
  every property proved here holds for an arbitrary draw, subject only to
  the number of elements `std::sample` is specified to return;
- thread interleaving is explicit: the order in which workers append to the
  shared sample pool, and per bucket the order in which workers append
  their contributions, are arbitrary permutations of the worker ids. -/

namespace HSS

open List

/-! ### Model of `std::sort` on integer sequences -/

/-- Insert a value into a list, in front of the first element not smaller
than it.  Helper for `sortI`. -/
def insertSorted (x : Int) : List Int → List Int
  | [] => [x]
  | y :: ys => if x ≤ y then x :: y :: ys else y :: insertSorted x ys

/-- Model of `std::sort` on a `std::vector<long long>`: an executable sort
returning the unique sorted permutation of the input. -/
def sortI : List Int → List Int
  | [] => []
  | x :: xs => insertSorted x (sortI xs)

theorem insertSorted_perm (x : Int) (l : List Int) :
    insertSorted x l ~ x :: l := by
  induction l with
  | nil => exact List.Perm.refl _
  | cons y ys ih =>
    simp only [insertSorted]
    split
    · exact List.Perm.refl _
    · exact (ih.cons y).trans (List.Perm.swap x y ys)

theorem sortI_perm (l : List Int) : sortI l ~ l := by
  induction l with
  | nil => exact List.Perm.refl _
  | cons x xs ih => exact (insertSorted_perm x (sortI xs)).trans (ih.cons x)

theorem insertSorted_sorted (x : Int) (l : List Int)
    (h : l.Sorted (· ≤ ·)) : (insertSorted x l).Sorted (· ≤ ·) := by
  induction l with
  | nil => simp [insertSorted]
  | cons y ys ih =>
    rw [List.sorted_cons] at h
    by_cases hxy : x ≤ y
    · simp only [insertSorted, if_pos hxy]
      rw [List.sorted_cons]
      refine ⟨?_, List.sorted_cons.mpr h⟩
      intro b hb
      rcases List.mem_cons.mp hb with rfl | hb
      · exact hxy
      · exact le_trans hxy (h.1 b hb)
    · simp only [insertSorted, if_neg hxy]
      rw [List.sorted_cons]
      refine ⟨?_, ih h.2⟩
      intro b hb
      have hb' := (insertSorted_perm x ys).mem_iff.mp hb
      rcases List.mem_cons.mp hb' with rfl | hb'
      · omega
      · exact h.1 b hb'

theorem sortI_sorted (l : List Int) : (sortI l).Sorted (· ≤ ·) := by
  induction l with
  | nil => simp [sortI]
  | cons x xs ih => exact insertSorted_sorted x (sortI xs) ih

theorem sortI_eq_of_perm {l₁ l₂ : List Int} (h : l₁ ~ l₂) :
    sortI l₁ = sortI l₂ :=
  List.eq_of_perm_of_sorted ((sortI_perm l₁).trans (h.trans (sortI_perm l₂).symm))
    (sortI_sorted l₁) (sortI_sorted l₂)

theorem sortI_eq_iff_perm {l₁ l₂ : List Int} :
    sortI l₁ = sortI l₂ ↔ l₁ ~ l₂ := by
  constructor
  · intro h
    have h1 : l₁ ~ sortI l₂ := by rw [← h]; exact (sortI_perm l₁).symm
    exact h1.trans (sortI_perm l₂)
  · exact sortI_eq_of_perm

theorem sortI_length (l : List Int) : (sortI l).length = l.length :=
  (sortI_perm l).length_eq

theorem sortI_count (a : Int) (l : List Int) :
    (sortI l).count a = l.count a :=
  (sortI_perm l).count_eq a

theorem sortI_ne_nil {l : List Int} (h : l ≠ []) : sortI l ≠ [] := by
  intro hc
  apply h
  have := sortI_length l
  rw [hc] at this
  exact List.length_eq_zero.mp this.symm

/-! ### The splitters vector during leader selection: buffer plus size

`worker_function`, lines 117-131: the leader sorts the sample pool held in
`global_config.splitters`, remembers `total_samples` (its size) and
`splitter_step = total_samples / total_workers`, calls `clear()` on the
vector, and then *reads* `global_config.splitters[i * splitter_step]`
while pushing the selected values back into the same vector.  Reads past
the logical size are undefined behaviour in C++; the compiled program
reads the old buffer contents, which `clear()` leaves in place.  `CVec`
models exactly that: `buf` is the allocated storage that survives
`clear()`, `sz` the logical size. -/

structure CVec where
  buf : List Int
  sz : Nat
  hsz : sz ≤ buf.length

/-- `operator[]`: reads from the underlying storage (the de-facto
behaviour after a `clear()`); an index beyond the allocated storage is an
out-of-range read, modelled as `none`. -/
def CVec.get (v : CVec) (i : Nat) : Option Int := v.buf[i]?

/-- `push_back`: writes at the logical end, reusing the surviving slot if
the buffer is long enough, growing it otherwise. -/
def CVec.push (v : CVec) (x : Int) : CVec where
  buf := if v.sz < v.buf.length then v.buf.set v.sz x else v.buf ++ [x]
  sz := v.sz + 1
  hsz := by
    have h := v.hsz
    split <;> simp <;> omega

/-- `back()`: reads the last logical element; on a logically empty vector
this is an out-of-range access, modelled as `none`. -/
def CVec.back (v : CVec) : Option Int :=
  if v.sz = 0 then none else v.buf[v.sz - 1]?

/-- The logical contents of the vector, as observed by all later phases. -/
def CVec.contents (v : CVec) : List Int := v.buf.take v.sz

theorem CVec.push_sz (v : CVec) (x : Int) : (v.push x).sz = v.sz + 1 := rfl

theorem CVec.contents_length (v : CVec) : v.contents.length = v.sz := by
  simp [CVec.contents]
  exact v.hsz

theorem CVec.contents_push (v : CVec) (x : Int) :
    (v.push x).contents = v.contents ++ [x] := by
  have hsz := v.hsz
  simp only [CVec.contents, CVec.push]
  split
  · next h =>
    rw [List.take_succ]
    congr 1
    · apply List.ext_getElem?
      intro n
      by_cases hn : n < v.sz
      · rw [List.getElem?_take_of_lt hn, List.getElem?_take_of_lt hn,
          List.getElem?_set_ne (by omega)]
      · rw [List.getElem?_eq_none (by simp; omega), List.getElem?_eq_none (by simp; omega)]
    · rw [List.getElem?_set_self h]
      rfl
  · next h =>
    have hlen : v.sz = v.buf.length := by omega
    rw [List.take_of_length_le (by simp; omega)]
    rw [hlen, List.take_length]

theorem CVec.push_getElem? (v : CVec) (x : Int) (i : Nat) :
    (v.push x).buf[i]? = if i = v.sz then some x else v.buf[i]? := by
  have hsz := v.hsz
  simp only [CVec.push]
  split
  · next h =>
    by_cases hi : i = v.sz
    · subst hi; rw [if_pos rfl, List.getElem?_set_self h]
    · rw [if_neg hi, List.getElem?_set_ne (fun hc => hi hc.symm)]
  · next h =>
    have hlen : v.sz = v.buf.length := by omega
    by_cases hi : i = v.sz
    · subst hi
      rw [if_pos rfl, List.getElem?_append_right (by omega)]
      simp [hlen]
    · rw [if_neg hi]
      rcases Nat.lt_or_ge i v.sz with h2 | h2
      · rw [List.getElem?_append_left (by omega)]
      · rw [List.getElem?_eq_none (by simp; omega), List.getElem?_eq_none (by omega)]

theorem CVec.push_buf_length (v : CVec) (x : Int) :
    (v.push x).buf.length = max v.buf.length (v.sz + 1) := by
  have hsz := v.hsz
  simp only [CVec.push]
  split <;> simp <;> omega

theorem CVec.push_back (v : CVec) (x : Int) : (v.push x).back = some x := by
  simp only [CVec.back, CVec.push_sz]
  rw [if_neg (by omega)]
  rw [CVec.push_getElem?, if_pos (by omega)]

theorem CVec.back_eq_contents (v : CVec) (h : 1 ≤ v.sz) :
    v.back = v.contents[v.sz - 1]? := by
  simp only [CVec.back, CVec.contents]
  rw [if_neg (by omega), List.getElem?_take_of_lt (by omega)]

/-! ### Leader splitter selection (`worker_function`, lines 117-133) -/

/-- The leader's selection for-loop (lines 123-128): for each remaining
index `i`, if `i * step < total` (the pool size saved *before* the
`clear()`), read `splitters[i * step]` from the cleared vector and push
the value back into it.  `none` models an out-of-range read. -/
def selLoop (total step : Nat) : List Nat → CVec → Option CVec
  | [], v => some v
  | i :: is, v =>
    if i * step < total then
      match v.get (i * step) with
      | none => none
      | some x => selLoop total step is (v.push x)
    else selLoop total step is v

/-- The leader's padding while-loop (lines 129-131), with an explicit
iteration count: the loop runs while `sz < target`, growing `sz` by one
per round, so `target - sz` rounds are exactly the iterations performed.
`none` models `back()` on a logically empty vector. -/
def padGo (target : Nat) : Nat → CVec → Option CVec
  | 0, v => some v
  | k + 1, v =>
    if v.sz < target then
      match v.back with
      | none => none
      | some x => padGo target k (v.push x)
    else some v

/-- `while (splitters.size() < total_workers - 1) push_back(back())`. -/
def padLoop (target : Nat) (v : CVec) : Option CVec :=
  padGo target (target - v.sz) v

/-- Leader selection run on the already-sorted sample pool `s` (the state
of `global_config.splitters` right after the `std::sort` at line 118):
remember `total_samples` and `splitter_step`, clear the vector (keeping
its storage), run the selection loop and the padding loop, and publish
the logical contents. -/
def leaderSelectSorted (s : List Int) (P : Nat) : Option (List Int) :=
  (selLoop s.length (s.length / P) (List.range' 1 (P - 1)) ⟨s, 0, Nat.zero_le _⟩).bind
    (fun v => (padLoop (P - 1) v).map CVec.contents)

/-- Phase 2b as run by worker 0: sort the pooled samples in place, then
select the splitters. -/
def leaderSelect (pool : List Int) (P : Nat) : Option (List Int) :=
  leaderSelectSorted (sortI pool) P

/-- The values the selection loop extracts, described directly over the
sorted pool: the elements at positions `i * step` for `i = 1 .. P-1`,
for those `i` whose position is in range. -/
def selList (s : List Int) (P : Nat) : List Int :=
  ((List.range' 1 (P - 1)).filter (fun i => i * (s.length / P) < s.length)).map
    (fun i => s.getD (i * (s.length / P)) 0)

/-- Padding by repetition of the last computed value, up to length `n`. -/
def padList (l : List Int) (n : Nat) : List Int :=
  l ++ List.replicate (n - l.length) (l.getD (l.length - 1) 0)

/-- Invariant-carrying specification of the selection loop, starting from
an arbitrary intermediate state.  The invariants say: the buffer is the
sorted pool with its first `sz` slots overwritten by the pushed values
(`hB`), the buffer never shrinks below the pool (`hA`), when `step = 0`
every already-pushed value is the pool head (`hD` -- in that case every
read hits slot `0`, possibly already overwritten by an equal value), and
the number of pushes stays below the next loop index (`hE`).  Under these
the loop never goes out of range and pushes exactly the pool elements at
the positions `i * step` that are below the saved pool size. -/
theorem selLoop_spec (s : List Int) (step : Nat) :
    ∀ (k j : Nat) (v : CVec),
      v.buf.length = max s.length v.sz →
      (∀ i, v.sz ≤ i → v.buf[i]? = s[i]?) →
      (step = 0 → ∀ i, i < v.sz → v.buf[i]? = s[0]?) →
      v.sz < j →
      ∃ w, selLoop s.length step (List.range' j k) v = some w ∧
        w.contents = v.contents ++
          (((List.range' j k).filter (fun i => i * step < s.length)).map
            (fun i => s.getD (i * step) 0)) ∧
        w.buf.length = max s.length w.sz ∧
        (∀ i, w.sz ≤ i → w.buf[i]? = s[i]?) ∧
        (step = 0 → ∀ i, i < w.sz → w.buf[i]? = s[0]?) := by
  intro k
  induction k with
  | zero =>
    intro j v hA hB hD _
    exact ⟨v, rfl, by simp, hA, hB, hD⟩
  | succ k ih =>
    intro j v hA hB hD hE
    rw [List.range'_succ]
    by_cases hij : j * step < s.length
    · have hread : v.buf[j * step]? = s[j * step]? := by
        rcases Nat.eq_zero_or_pos step with hstep | hstep
        · subst hstep
          rw [Nat.mul_zero]
          rcases Nat.eq_zero_or_pos v.sz with hz | hz
          · exact hB 0 (by omega)
          · exact hD rfl 0 hz
        · have hle : v.sz ≤ j * step := by
            have := Nat.mul_le_mul_left j hstep
            omega
          exact hB _ hle
      have hsome : v.get (j * step) = some (s.getD (j * step) 0) := by
        unfold CVec.get
        rw [hread, List.getElem?_eq_getElem hij]
        simp [List.getElem?_eq_getElem hij]
      simp only [selLoop, if_pos hij, hsome]
      have hA' : (v.push (s.getD (j * step) 0)).buf.length =
          max s.length (v.push (s.getD (j * step) 0)).sz := by
        rw [CVec.push_buf_length, CVec.push_sz, hA]
        omega
      have hB' : ∀ i, (v.push (s.getD (j * step) 0)).sz ≤ i →
          (v.push (s.getD (j * step) 0)).buf[i]? = s[i]? := by
        intro i hi
        rw [CVec.push_sz] at hi
        rw [CVec.push_getElem?, if_neg (by omega)]
        exact hB i (by omega)
      have hD' : step = 0 → ∀ i, i < (v.push (s.getD (j * step) 0)).sz →
          (v.push (s.getD (j * step) 0)).buf[i]? = s[0]? := by
        intro hstep i hi
        rw [CVec.push_sz] at hi
        rw [CVec.push_getElem?]
        by_cases hisz : i = v.sz
        · rw [if_pos hisz]
          subst hstep
          rw [Nat.mul_zero] at hij ⊢
          rw [List.getElem?_eq_getElem hij]
          simp [List.getElem?_eq_getElem hij]
        · rw [if_neg hisz]
          exact hD hstep i (by omega)
      have hE' : (v.push (s.getD (j * step) 0)).sz < j + 1 := by
        rw [CVec.push_sz]; omega
      obtain ⟨w, hw, hwc, hwA, hwB, hwD⟩ :=
        ih (j + 1) (v.push (s.getD (j * step) 0)) hA' hB' hD' hE'
      refine ⟨w, hw, ?_, hwA, hwB, hwD⟩
      rw [hwc, CVec.contents_push]
      simp [List.filter_cons, hij]
    · simp only [selLoop, if_neg hij]
      obtain ⟨w, hw, hwc, hwA, hwB, hwD⟩ := ih (j + 1) v hA hB hD (by omega)
      refine ⟨w, hw, ?_, hwA, hwB, hwD⟩
      rw [hwc]
      simp [List.filter_cons, hij]

/-- Specification of the padding while-loop when the vector is logically
non-empty: it appends `back()` (which stays the same value as it is
re-pushed) until the target size is reached. -/
theorem padGo_spec (target : Nat) :
    ∀ (k : Nat) (v : CVec) (x : Int),
      k = target - v.sz → v.back = some x →
      ∃ w, padGo target k v = some w ∧
        w.contents = v.contents ++ List.replicate k x := by
  intro k
  induction k with
  | zero =>
    intro v x _ _
    exact ⟨v, rfl, by simp⟩
  | succ k ih =>
    intro v x hk hback
    have hlt : v.sz < target := by omega
    simp only [padGo, if_pos hlt, hback]
    obtain ⟨w, hw, hwc⟩ := ih (v.push x) x (by rw [CVec.push_sz]; omega) (CVec.push_back v x)
    refine ⟨w, hw, ?_⟩
    rw [hwc, CVec.contents_push]
    simp [List.replicate_succ]

/-- The padding loop on a logically empty vector with a positive target
calls `back()` out of range: undefined behaviour, modelled as `none`.
This is exactly what the leader does when the sample pool is empty. -/
theorem padLoop_crash (target : Nat) (v : CVec) (h0 : v.sz = 0)
    (ht : 1 ≤ target) : padLoop target v = none := by
  unfold padLoop
  rw [h0, Nat.sub_zero]
  obtain ⟨t, rfl⟩ : ∃ t, target = t + 1 := ⟨target - 1, by omega⟩
  simp only [padGo]
  rw [if_pos (by omega)]
  have hb : v.back = none := by simp [CVec.back, h0]
  rw [hb]

theorem selList_length_le (s : List Int) (P : Nat) : (selList s P).length ≤ P - 1 := by
  unfold selList
  rw [List.length_map]
  calc _ ≤ (List.range' 1 (P - 1)).length := List.length_filter_le _ _
    _ = P - 1 := List.length_range' _ _ _

theorem selList_ne_nil (s : List Int) (P : Nat) (hP : 2 ≤ P) (hs : s ≠ []) :
    selList s P ≠ [] := by
  have hlen : 0 < s.length := List.length_pos.mpr hs
  have h1 : (1 : Nat) ∈ (List.range' 1 (P - 1)).filter
      (fun i => i * (s.length / P) < s.length) := by
    rw [List.mem_filter]
    constructor
    · rw [List.mem_range']
      exact ⟨0, by omega, by omega⟩
    · simp only [Nat.one_mul, decide_eq_true_eq]
      exact Nat.div_lt_self hlen (by omega)
  unfold selList
  intro hc
  rw [List.map_eq_nil_iff] at hc
  rw [hc] at h1
  exact absurd h1 (List.not_mem_nil 1)

theorem padList_length (l : List Int) (n : Nat) (h : l.length ≤ n) :
    (padList l n).length = n := by
  simp [padList]
  omega

/-- Full characterisation of leader selection on a non-empty sorted pool
with at least two workers: the de-facto behaviour of the clear-then-index
code coincides with nearest-rank selection over the sorted pool followed
by padding with the last computed value. -/
theorem leaderSelectSorted_eq (s : List Int) (P : Nat) (hP : 2 ≤ P) (hs : s ≠ []) :
    leaderSelectSorted s P = some (padList (selList s P) (P - 1)) := by
  unfold leaderSelectSorted
  obtain ⟨w, hw, hwc, _, _, _⟩ := selLoop_spec s (s.length / P) (P - 1) 1
    ⟨s, 0, Nat.zero_le _⟩ (by simp) (fun i _ => rfl)
    (fun _ i hi => absurd hi (Nat.not_lt_zero i)) Nat.zero_lt_one
  rw [hw]
  have hwcs : w.contents = selList s P := by
    rw [hwc]
    simp [CVec.contents, selList]
  have hwsz : w.sz = (selList s P).length := by
    rw [← hwcs, CVec.contents_length]
  have hm1 : 1 ≤ w.sz := by
    rw [hwsz]
    exact List.length_pos.mpr (selList_ne_nil s P hP hs)
  have hback : w.back = some ((selList s P).getD ((selList s P).length - 1) 0) := by
    rw [CVec.back_eq_contents w hm1, hwcs, hwsz]
    have hlt : (selList s P).length - 1 < (selList s P).length := by
      rw [← hwsz]; omega
    rw [List.getElem?_eq_getElem hlt]
    simp [List.getElem?_eq_getElem hlt]
  obtain ⟨w2, hw2, hw2c⟩ := padGo_spec (P - 1) ((P - 1) - w.sz) w
    ((selList s P).getD ((selList s P).length - 1) 0) rfl hback
  have hpl : padLoop (P - 1) w = some w2 := hw2
  rw [Option.some_bind, hpl, Option.map_some']
  show some w2.contents = _
  rw [hw2c, hwcs, hwsz]
  rfl

theorem leaderSelectSorted_one (s : List Int) : leaderSelectSorted s 1 = some [] := rfl

theorem leaderSelectSorted_nil (P : Nat) (hP : 2 ≤ P) :
    leaderSelectSorted [] P = none := by
  unfold leaderSelectSorted
  obtain ⟨w, hw, hwc, _, _, _⟩ := selLoop_spec [] (([] : List Int).length / P) (P - 1) 1
    ⟨[], 0, Nat.zero_le _⟩ (by simp) (fun i _ => rfl)
    (fun _ i hi => absurd hi (Nat.not_lt_zero i)) Nat.zero_lt_one
  rw [hw, Option.some_bind]
  have hwsz : w.sz = 0 := by
    have := w.contents_length
    rw [hwc] at this
    simp [CVec.contents] at this
    omega
  rw [padLoop_crash (P - 1) w hwsz (by omega)]
  rfl

/-- Any successfully published splitter sequence has length exactly
`P - 1`. -/
theorem leaderSelect_length (pool : List Int) (P : Nat) (hP : 1 ≤ P)
    (sp : List Int) (h : leaderSelect pool P = some sp) : sp.length = P - 1 := by
  unfold leaderSelect at h
  rcases Nat.lt_or_ge P 2 with h2 | h2
  · have hP1 : P = 1 := by omega
    subst hP1
    rw [leaderSelectSorted_one] at h
    injection h with h
    rw [← h]
    rfl
  · by_cases hpool : pool = []
    · subst hpool
      rw [show sortI [] = [] from rfl, leaderSelectSorted_nil P h2] at h
      exact absurd h (by simp)
    · rw [leaderSelectSorted_eq _ P h2 (sortI_ne_nil hpool)] at h
      injection h with h
      rw [← h]
      exact padList_length _ _ (selList_length_le _ _)

/-- The leader selection succeeds iff the pool is non-empty or there is a
single worker. -/
theorem leaderSelect_some (pool : List Int) (P : Nat) (hP : 1 ≤ P)
    (h : pool ≠ [] ∨ P = 1) :
    ∃ sp, leaderSelect pool P = some sp ∧ sp.length = P - 1 := by
  unfold leaderSelect
  rcases Nat.lt_or_ge P 2 with h2 | h2
  · have hP1 : P = 1 := by omega
    subst hP1
    exact ⟨[], leaderSelectSorted_one _, rfl⟩
  · have hpool : pool ≠ [] := by
      rcases h with h | h
      · exact h
      · omega
    refine ⟨_, leaderSelectSorted_eq _ P h2 (sortI_ne_nil hpool), ?_⟩
    exact padList_length _ _ (selList_length_le _ _)

/-- A downward-closed filter keeps a prefix of `range' 1 n`. -/
theorem filter_range'_prefix (p : Nat → Bool)
    (hmono : ∀ a b : Nat, a ≤ b → p b = true → p a = true) :
    ∀ n, (List.range' 1 n).filter p =
      List.range' 1 ((List.range' 1 n).filter p).length := by
  intro n
  induction n with
  | zero => rfl
  | succ n ih =>
    rw [List.range'_1_concat, List.filter_append]
    by_cases hp : p (1 + n) = true
    · have hall : ∀ a ∈ List.range' 1 n, p a = true := by
        intro a ha
        obtain ⟨k, hk, hak⟩ := List.mem_range'.mp ha
        exact hmono a (1 + n) (by omega) hp
      rw [List.filter_eq_self.mpr hall]
      have hone : List.filter p [1 + n] = [1 + n] := by
        simp [List.filter_cons, hp]
      rw [hone, ← List.range'_1_concat]
      congr 1
      simp
    · have hpf : p (1 + n) = false := by
        cases hpq : p (1 + n)
        · rfl
        · exact absurd hpq hp
      have hone : List.filter p [1 + n] = [] := by
        simp [List.filter_cons, hpf]
      rw [hone, List.append_nil]
      exact ih

/-- Nearest-rank indexing: whenever `i * step` is below the saved pool
size, the published splitter `i - 1` is exactly the sorted-pool element at
position `i * step` (with `step = pool_size / P`). -/
theorem leaderSelect_getElem (pool : List Int) (P : Nat) (sp : List Int)
    (h : leaderSelect pool P = some sp) (i : Nat) (h1 : 1 ≤ i) (hiP : i < P)
    (hrange : i * (pool.length / P) < pool.length) :
    sp[i - 1]? = (sortI pool)[i * (pool.length / P)]? := by
  have hP : 2 ≤ P := by omega
  have hpool : pool ≠ [] := by
    intro hc
    subst hc
    simp at hrange
  have hs : sortI pool ≠ [] := sortI_ne_nil hpool
  have hlen : (sortI pool).length = pool.length := sortI_length pool
  unfold leaderSelect at h
  rw [leaderSelectSorted_eq _ P hP hs] at h
  injection h with h
  subst h
  rw [← hlen] at hrange ⊢
  set s := sortI pool with hsdef
  have hmono : ∀ a b : Nat, a ≤ b →
      decide (b * (s.length / P) < s.length) = true →
      decide (a * (s.length / P) < s.length) = true := by
    intro a b hab hb
    rw [decide_eq_true_eq] at hb ⊢
    have hmm : a * (s.length / P) ≤ b * (s.length / P) := Nat.mul_le_mul_right _ hab
    omega
  have hpre := filter_range'_prefix _ hmono (P - 1)
  set m := ((List.range' 1 (P - 1)).filter
    (fun i => decide (i * (s.length / P) < s.length))).length with hm
  have hiF : i ∈ (List.range' 1 (P - 1)).filter
      (fun i => decide (i * (s.length / P) < s.length)) := by
    rw [List.mem_filter]
    refine ⟨?_, by rw [decide_eq_true_eq]; exact hrange⟩
    rw [List.mem_range']
    exact ⟨i - 1, by omega, by omega⟩
  have him : i ≤ m := by
    rw [hpre] at hiF
    obtain ⟨k, hk, hik⟩ := List.mem_range'.mp hiF
    omega
  have hsel : selList s P =
      (List.range' 1 m).map (fun i => s.getD (i * (s.length / P)) 0) := by
    unfold selList
    rw [hpre]
  unfold padList
  rw [List.getElem?_append_left (by rw [hsel]; simp; omega)]
  rw [hsel, List.getElem?_map,
    List.getElem?_eq_getElem (by simp; omega : i - 1 < (List.range' 1 m).length)]
  simp only [List.getElem_range', Option.map_some']
  have hidx : 1 + 1 * (i - 1) = i := by omega
  rw [hidx, List.getElem?_eq_getElem hrange]
  simp [List.getElem?_eq_getElem hrange]

/-! ### Phase 1: initial chunking (`worker_function`, lines 74-82) -/

def baseChunkSize (N P : Nat) : Nat := N / P

def chunkStart (N P w : Nat) : Nat := w * baseChunkSize N P

def chunkEnd (N P w : Nat) : Nat :=
  if w = P - 1 then N else chunkStart N P w + baseChunkSize N P

/-- `local_chunk.assign(dataset.begin() + chunk_start, dataset.begin() + chunk_end)`. -/
def initialChunk (ds : List Int) (N P w : Nat) : List Int :=
  (ds.drop (chunkStart N P w)).take (chunkEnd N P w - chunkStart N P w)

/-- The local chunk after the in-place `std::sort` of Phase 1. -/
def sortedChunk (ds : List Int) (N P w : Nat) : List Int :=
  sortI (initialChunk ds N P w)

/-! ### Phase 2a: sample selection (`worker_function`, lines 94-109) -/

/-- `samples_per_worker = 10 * total_workers` (line 94); if the local
chunk holds at least that many elements, `std::sample` draws that many
using the rng seeded with `seed + worker_id` (the draw itself is kept
abstract as `draw`), otherwise the whole chunk is used. -/
def localSamples (draw : Nat → List Int → List Int) (P w : Nat)
    (chunk : List Int) : List Int :=
  if 10 * P ≤ chunk.length then draw w chunk else chunk

/-- The shared sample pool (`global_config.splitters` before Phase 2b):
each worker appends its whole sample block under the global mutex, so the
pool is the concatenation of the per-worker blocks in the arbitrary
mutex-acquisition order `ord`. -/
def samplePool (ds : List Int) (N P : Nat) (seed : Int)
    (oracle : Int → Nat → List Int → List Int) (ord : List Nat) : List Int :=
  (ord.map (fun w => localSamples (oracle seed) P w (sortedChunk ds N P w))).flatten

/-! ### Phase 3: partition and exchange (`worker_function`, lines 139-159) -/

/-- `std::upper_bound` over the splitter vector, modelled by its
specification: the position of the first splitter strictly greater than
the probe, i.e. the length of the leading run of splitters `≤ v`. -/
def upperBoundIdx (s : List Int) (v : Int) : Nat :=
  (s.takeWhile (fun x => x ≤ v)).length

/-- Bucket index of a value (lines 143-146): the `upper_bound` position,
clamped with `std::clamp(idx, 0, total_workers - 1)`; the position is a
count hence non-negative, so the clamp reduces to a `min`. -/
def bucketIdx (splits : List Int) (P : Nat) (v : Int) : Nat :=
  min (upperBoundIdx splits v) (P - 1)

/-- The sub-list a worker routes to bucket `b` (lines 141-148): the loop
walks the chunk in order and appends each value to
`local_buckets[bucket_idx]`, so bucket `b` receives the chunk filtered to
the values whose bucket index is `b`, in chunk order. -/
def localBucket (splits : List Int) (P : Nat) (chunk : List Int) (b : Nat) : List Int :=
  chunk.filter (fun v => bucketIdx splits P v = b)

/-- The shared contribution list of bucket `b`
(`global_config.bucket_contributions[b]`): workers append their non-empty
blocks under the bucket's mutex in the arbitrary order `bord`; skipping
the empty blocks (line 152) does not change the concatenation, since an
empty block contributes nothing. -/
def bucketContrib (splits : List Int) (ds : List Int) (N P : Nat)
    (bord : List Nat) (b : Nat) : List Int :=
  (bord.map (fun w => localBucket splits P (sortedChunk ds N P w) b)).flatten

/-! ### Phase 4: final sort (`worker_function`, lines 165-170) -/

/-- Worker `b` replaces its chunk with its bucket's contribution list and
sorts it. -/
def finalChunk (splits : List Int) (ds : List Int) (N P : Nat)
    (bord : List Nat) (b : Nat) : List Int :=
  sortI (bucketContrib splits ds N P bord b)

/-! ### Orchestrator (`main`) -/

/-- Shared configuration (`struct Config`, lines 17-31).  The dataset is
received as an input, per the stated scope; `max_imbalance` is the parsed
`ε` (a C++ `double`, modelled as an exact rational since the program
never computes with it -- the field is only ever written). -/
structure Config where
  numWorkers : Nat
  randomSeed : Int
  totalElements : Nat
  verboseOutput : Bool
  dataset : List Int
  maxImbalance : Rat

/-- Outcome of result collection and validation (`main`, lines 239-264):
the process exit code, the element count printed by the integrity-error
message (a `size_t` difference), and the validation line printed on
standard output when the count matches. -/
structure ValidateOut where
  exitCode : Nat
  reportedLost : Option Nat
  validationMsg : Option String
  deriving DecidableEq

/-- `total_elements - total_counted` with both operands `size_t`:
64-bit modular subtraction, as printed at line 252. -/
def lostCount (n c : Nat) : Nat := (((n : Int) - (c : Int)) % (2 ^ 64 : Int)).toNat

/-- `main`, lines 239-264: sum the final chunk sizes while concatenating;
on a count mismatch print the `size_t` difference and exit 1; otherwise
sort a copy of the concatenation, sort a copy of the original dataset,
compare, print the validation line, and (eventually) exit 0. -/
def collectValidate (chunks : List (List Int)) (ds : List Int) (N : Nat) : ValidateOut :=
  if (chunks.map List.length).sum ≠ N then
    { exitCode := 1
      reportedLost := some (lostCount N ((chunks.map List.length).sum))
      validationMsg := none }
  else
    { exitCode := 0
      reportedLost := none
      validationMsg := some (if sortI chunks.flatten = sortI ds
        then "Sorted correctly!" else "Sorting failed!") }

/-- Everything observable about a completed run: the published splitters,
the per-worker final chunks in worker-id order, their concatenation, and
the validation outcome (exit code and messages). -/
structure RunResult where
  splitters : List Int
  finalChunks : List (List Int)
  concatOutput : List Int
  validation : ValidateOut
  deriving DecidableEq

/-- The final chunks of all workers, in worker-id order. -/
def finalsOf (cfg : Config) (splits : List Int) (bucketOrd : Nat → List Nat) :
    List (List Int) :=
  (List.range cfg.numWorkers).map
    (fun b => finalChunk splits cfg.dataset cfg.totalElements cfg.numWorkers (bucketOrd b) b)

/-- One whole run of the program on a given configuration: the worker
pipeline (with the sampling draw abstracted as `oracle` and the thread
interleavings as `poolOrd`/`bucketOrd`) followed by collection and
validation in `main`.  `none` models a run aborted by undefined behaviour
(the out-of-range vector accesses in the leader phase). -/
def runHSS (cfg : Config) (oracle : Int → Nat → List Int → List Int)
    (poolOrd : List Nat) (bucketOrd : Nat → List Nat) : Option RunResult :=
  (leaderSelect
      (samplePool cfg.dataset cfg.totalElements cfg.numWorkers cfg.randomSeed oracle poolOrd)
      cfg.numWorkers).map
    (fun splits =>
      { splitters := splits
        finalChunks := finalsOf cfg splits bucketOrd
        concatOutput := (finalsOf cfg splits bucketOrd).flatten
        validation := collectValidate (finalsOf cfg splits bucketOrd)
          cfg.dataset cfg.totalElements })

/-! ### Counting helpers -/

theorem sum_map_zero {α : Type} (l : List α) :
    (l.map (fun _ => (0 : Nat))).sum = 0 := by
  induction l <;> simp [*]

theorem sum_map_add {α : Type} (f g : α → Nat) (l : List α) :
    (l.map (fun a => f a + g a)).sum = (l.map f).sum + (l.map g).sum := by
  induction l with
  | nil => rfl
  | cons a l ih =>
    simp only [List.map_cons, List.sum_cons, ih]
    omega

theorem sum_map_comm {α β : Type} (I : List α) (W : List β) (c : α → β → Nat) :
    (I.map (fun i => (W.map (fun w => c i w)).sum)).sum
      = (W.map (fun w => (I.map (fun i => c i w)).sum)).sum := by
  induction I with
  | nil => simp [sum_map_zero]
  | cons a I ih =>
    simp only [List.map_cons, List.sum_cons, ih]
    rw [sum_map_add (fun w => c a w) (fun w => (I.map (fun i => c i w)).sum) W]

theorem sum_map_range_ite (n k c : Nat) :
    ((List.range n).map (fun i => if k = i then c else 0)).sum
      = if k < n then c else 0 := by
  induction n with
  | zero => simp
  | succ n ih =>
    rw [List.range_succ, List.map_append, List.sum_append, ih]
    by_cases hk : k < n
    · rw [if_pos hk, if_pos (by omega)]
      have hne : k ≠ n := by omega
      simp [if_neg hne]
    · by_cases hkn : k = n
      · subst hkn
        rw [if_neg hk, if_pos (by omega)]
        simp
      · rw [if_neg hk, if_neg (by omega)]
        simp [hkn]

theorem count_filter_eq (p : Int → Bool) (a : Int) (l : List Int) :
    (l.filter p).count a = if p a then l.count a else 0 := by
  by_cases hp : p a
  · rw [if_pos hp, List.count_filter hp]
  · rw [if_neg hp, List.count_eq_zero]
    intro hmem
    rw [List.mem_filter] at hmem
    exact hp hmem.2

/-! ### The partition step is total and lossless -/

theorem bucketIdx_lt (splits : List Int) (P : Nat) (hP : 1 ≤ P) (v : Int) :
    bucketIdx splits P v < P := by
  unfold bucketIdx
  omega

theorem buckets_flatten_perm (splits : List Int) (P : Nat) (hP : 1 ≤ P)
    (chunk : List Int) :
    ((List.range P).map (localBucket splits P chunk)).flatten ~ chunk := by
  rw [List.perm_iff_count]
  intro a
  rw [List.count_flatten, List.map_map]
  have h3 : ∀ b ∈ List.range P,
      (List.count a ∘ localBucket splits P chunk) b
        = if bucketIdx splits P a = b then chunk.count a else 0 := by
    intro b _
    simp only [Function.comp_apply]
    unfold localBucket
    rw [count_filter_eq]
    by_cases h : bucketIdx splits P a = b <;> simp [h]
  rw [List.map_congr_left h3, sum_map_range_ite, if_pos (bucketIdx_lt splits P hP a)]

/-! ### The initial chunks tile the dataset -/

theorem chunks_flatten_aux (ds : List Int) (P : Nat) :
    ∀ (k j : Nat), j + k = P → 1 ≤ k →
      ((List.range' j k).map (fun w => initialChunk ds ds.length P w)).flatten
        = ds.drop (chunkStart ds.length P j) := by
  intro k
  induction k with
  | zero => omega
  | succ k ih =>
    intro j hjk _
    rw [List.range'_succ, List.map_cons, List.flatten_cons]
    rcases Nat.eq_zero_or_pos k with hk | hk
    · subst hk
      have hj : j = P - 1 := by omega
      have h0 : List.range' (j + 1) 0 = [] := rfl
      rw [h0, List.map_nil, List.flatten_nil, List.append_nil]
      unfold initialChunk chunkEnd
      rw [if_pos hj]
      apply List.take_of_length_le
      rw [List.length_drop]
    · have hjP : ¬ j = P - 1 := by omega
      rw [ih (j + 1) (by omega) hk]
      unfold initialChunk chunkEnd
      rw [if_neg hjP]
      have hs1 : chunkStart ds.length P (j + 1)
          = chunkStart ds.length P j + baseChunkSize ds.length P := by
        unfold chunkStart
        rw [Nat.succ_mul]
      have hs2 : chunkStart ds.length P j + baseChunkSize ds.length P
          - chunkStart ds.length P j = baseChunkSize ds.length P := by omega
      rw [hs1, hs2, ← List.drop_drop]
      exact List.take_append_drop _ _

theorem chunks_flatten (ds : List Int) (P : Nat) (hP : 1 ≤ P) :
    ((List.range P).map (fun w => initialChunk ds ds.length P w)).flatten = ds := by
  rw [List.range_eq_range', chunks_flatten_aux ds P P 0 (by omega) hP]
  have h0 : chunkStart ds.length P 0 = 0 := by
    unfold chunkStart
    exact Nat.zero_mul _
  rw [h0, List.drop_zero]

theorem lastChunk_ne_nil (ds : List Int) (P : Nat) (_hP : 1 ≤ P) (hds : ds ≠ []) :
    initialChunk ds ds.length P (P - 1) ≠ [] := by
  have hlen : 0 < ds.length := List.length_pos.mpr hds
  have hstart : chunkStart ds.length P (P - 1) < ds.length := by
    unfold chunkStart baseChunkSize
    have h2 : ds.length / P * P ≤ ds.length := Nat.div_mul_le_self _ _
    have h3 : (P - 1) * (ds.length / P) = P * (ds.length / P) - 1 * (ds.length / P) := by
      rw [← Nat.sub_mul]
    rcases Nat.eq_zero_or_pos (ds.length / P) with hq | hq
    · rw [hq, Nat.mul_zero]
      exact hlen
    · rw [h3, Nat.one_mul, Nat.mul_comm]
      omega
  have hL : (initialChunk ds ds.length P (P - 1)).length
      = ds.length - chunkStart ds.length P (P - 1) := by
    unfold initialChunk chunkEnd
    rw [if_pos rfl]
    rw [List.length_take, List.length_drop]
    omega
  intro hc
  rw [hc] at hL
  simp at hL
  omega

/-! ### The sample pool is non-empty whenever the dataset is -/

theorem localSamples_ne_nil (draw : Nat → List Int → List Int) (P w : Nat)
    (chunk : List Int) (hc : chunk ≠ [])
    (hdraw : 10 * P ≤ chunk.length → (draw w chunk).length = 10 * P)
    (hP : 1 ≤ P) : localSamples draw P w chunk ≠ [] := by
  unfold localSamples
  split
  · next h =>
    intro hnil
    have hd := hdraw h
    rw [hnil] at hd
    simp at hd
    omega
  · exact hc

theorem samplePool_ne_nil (ds : List Int) (P : Nat) (seed : Int)
    (oracle : Int → Nat → List Int → List Int) (ord : List Nat)
    (hP : 1 ≤ P) (hds : ds ≠ []) (hord : ord ~ List.range P)
    (hdraw : ∀ w c, 10 * P ≤ c.length → (oracle seed w c).length = 10 * P) :
    samplePool ds ds.length P seed oracle ord ≠ [] := by
  have hmem : (P - 1) ∈ ord := hord.mem_iff.mpr (List.mem_range.mpr (by omega))
  intro hc
  unfold samplePool at hc
  rw [List.flatten_eq_nil_iff] at hc
  have hnil := hc (localSamples (oracle seed) P (P - 1)
    (sortedChunk ds ds.length P (P - 1))) (List.mem_map_of_mem _ hmem)
  exact localSamples_ne_nil _ _ _ _
    (by unfold sortedChunk; exact sortI_ne_nil (lastChunk_ne_nil ds P hP hds))
    (hdraw (P - 1) _) hP hnil

/-! ### The concatenated final chunks are a permutation of the dataset -/

/-- Every element of the dataset ends up in exactly one final chunk:
counting any value across the concatenation of the final chunks (taken in
worker-id order, with arbitrary per-bucket contribution orders) gives its
count in the dataset. -/
theorem finals_flatten_perm (splits : List Int) (ds : List Int) (P : Nat)
    (hP : 1 ≤ P) (bucketOrd : Nat → List Nat)
    (hbord : ∀ b, b < P → bucketOrd b ~ List.range P) :
    ((List.range P).map
      (fun b => finalChunk splits ds ds.length P (bucketOrd b) b)).flatten ~ ds := by
  rw [List.perm_iff_count]
  intro a
  rw [List.count_flatten, List.map_map]
  have h1 : ∀ b ∈ List.range P,
      (List.count a ∘ fun b => finalChunk splits ds ds.length P (bucketOrd b) b) b
        = ((List.range P).map
            (fun w => (localBucket splits P (sortedChunk ds ds.length P w) b).count a)).sum := by
    intro b hb
    simp only [Function.comp_apply]
    unfold finalChunk
    rw [sortI_count]
    unfold bucketContrib
    rw [List.count_flatten, List.map_map]
    exact (((hbord b (List.mem_range.mp hb)).map _).sum_eq)
  rw [List.map_congr_left h1, sum_map_comm]
  have h2 : ∀ w ∈ List.range P,
      ((List.range P).map
        (fun b => (localBucket splits P (sortedChunk ds ds.length P w) b).count a)).sum
        = (initialChunk ds ds.length P w).count a := by
    intro w _
    have h3 : ∀ b ∈ List.range P,
        (localBucket splits P (sortedChunk ds ds.length P w) b).count a
          = if bucketIdx splits P a = b then (sortedChunk ds ds.length P w).count a
            else 0 := by
      intro b _
      unfold localBucket
      rw [count_filter_eq]
      by_cases h : bucketIdx splits P a = b <;> simp [h]
    rw [List.map_congr_left h3, sum_map_range_ite,
      if_pos (bucketIdx_lt splits P hP a)]
    unfold sortedChunk
    exact sortI_count a _
  rw [List.map_congr_left h2]
  have h4 : (List.range P).map (fun w => (initialChunk ds ds.length P w).count a)
      = ((List.range P).map (fun w => initialChunk ds ds.length P w)).map (List.count a) := by
    rw [List.map_map]
    rfl
  rw [h4, ← List.count_flatten, chunks_flatten ds P hP]

/-! ### The concatenated final chunks are sorted -/

/-- `takeWhile` positional facts about the upper-bound index: every
position strictly below it satisfies the predicate, the position itself
(when in range) does not. -/
theorem lt_upperBoundIdx_le (s : List Int) (v : Int) (j : Nat)
    (h : j < upperBoundIdx s v) : s.getD j 0 ≤ v := by
  induction s generalizing j with
  | nil => simp [upperBoundIdx] at h
  | cons x xs ih =>
    unfold upperBoundIdx at h
    rw [List.takeWhile_cons] at h
    by_cases hx : x ≤ v
    · rw [if_pos (by simpa using hx)] at h
      cases j with
      | zero => simpa using hx
      | succ j =>
        simp only [List.length_cons] at h
        exact ih j (by unfold upperBoundIdx; omega)
    · rw [if_neg (by simpa using hx)] at h
      simp at h

theorem upperBoundIdx_not_le (s : List Int) (v : Int)
    (h : upperBoundIdx s v < s.length) : ¬ s.getD (upperBoundIdx s v) 0 ≤ v := by
  induction s with
  | nil => simp at h
  | cons x xs ih =>
    unfold upperBoundIdx
    rw [List.takeWhile_cons]
    by_cases hx : x ≤ v
    · rw [if_pos (by simpa using hx)]
      simp only [List.length_cons]
      have hlt : upperBoundIdx xs v < xs.length := by
        unfold upperBoundIdx at h ⊢
        rw [List.takeWhile_cons, if_pos (by simpa using hx)] at h
        simp only [List.length_cons] at h
        omega
      simpa using ih hlt
    · rw [if_neg (by simpa using hx)]
      simpa using hx

/-- Cross-bucket ordering: with a splitter list of length `P - 1`, any
value routed to a strictly smaller bucket index is at most any value
routed to a larger one. -/
theorem bucketIdx_mono (splits : List Int) (P : Nat) (hlen : splits.length = P - 1)
    (x y : Int) (hxy : bucketIdx splits P x < bucketIdx splits P y) : x ≤ y := by
  unfold bucketIdx at hxy
  have hx : upperBoundIdx splits x < P - 1 := by omega
  have hy : bucketIdx splits P y ≤ upperBoundIdx splits y := Nat.min_le_left _ _
  have hxi : upperBoundIdx splits x = bucketIdx splits P x := by
    unfold bucketIdx
    omega
  have h1 : ¬ splits.getD (upperBoundIdx splits x) 0 ≤ x :=
    upperBoundIdx_not_le splits x (by omega)
  have h2 : splits.getD (upperBoundIdx splits x) 0 ≤ y := by
    apply lt_upperBoundIdx_le splits y
    unfold bucketIdx at hy
    omega
  omega

/-- Every element of a bucket contribution list has that bucket's index. -/
theorem mem_bucketContrib (splits : List Int) (ds : List Int) (N P : Nat)
    (bord : List Nat) (b : Nat) (x : Int)
    (hx : x ∈ bucketContrib splits ds N P bord b) : bucketIdx splits P x = b := by
  unfold bucketContrib at hx
  rw [List.mem_flatten] at hx
  obtain ⟨l, hl, hxl⟩ := hx
  rw [List.mem_map] at hl
  obtain ⟨w, _, rfl⟩ := hl
  unfold localBucket at hxl
  rw [List.mem_filter] at hxl
  simpa using hxl.2

/-- Flattening sorted blocks that are pairwise ordered gives a sorted
list. -/
theorem sorted_flatten (L : List (List Int))
    (h1 : ∀ l ∈ L, l.Sorted (· ≤ ·))
    (h2 : L.Pairwise (fun l l2 => ∀ x ∈ l, ∀ y ∈ l2, x ≤ y)) :
    L.flatten.Sorted (· ≤ ·) := by
  induction L with
  | nil => simp
  | cons l L ih =>
    rw [List.flatten_cons]
    rw [List.pairwise_cons] at h2
    have hl := h1 l (List.mem_cons_self l L)
    have hrest := ih (fun l2 hl2 => h1 l2 (List.mem_cons_of_mem l hl2)) h2.2
    unfold List.Sorted
    rw [List.pairwise_append]
    refine ⟨hl, hrest, ?_⟩
    intro x hx y hy
    rw [List.mem_flatten] at hy
    obtain ⟨l2, hl2, hyl2⟩ := hy
    exact h2.1 l2 hl2 x hx y hyl2

/-- The concatenation of the final chunks in worker-id order is sorted,
for any splitter list of length exactly `P - 1`. -/
theorem finals_flatten_sorted (splits : List Int) (ds : List Int) (N P : Nat)
    (hlen : splits.length = P - 1) (bucketOrd : Nat → List Nat) :
    (((List.range P).map
      (fun b => finalChunk splits ds N P (bucketOrd b) b)).flatten).Sorted (· ≤ ·) := by
  apply sorted_flatten
  · intro l hl
    rw [List.mem_map] at hl
    obtain ⟨b, _, rfl⟩ := hl
    exact sortI_sorted _
  · rw [List.pairwise_map]
    have hp : (List.range P).Pairwise (· < ·) := List.pairwise_lt_range P
    refine List.Pairwise.imp ?_ hp
    intro b b2 hbb x hx y hy
    unfold finalChunk at hx hy
    have hxm : x ∈ bucketContrib splits ds N P (bucketOrd b) b :=
      (sortI_perm _).mem_iff.mp hx
    have hym : y ∈ bucketContrib splits ds N P (bucketOrd b2) b2 :=
      (sortI_perm _).mem_iff.mp hy
    have hbx := mem_bucketContrib splits ds N P (bucketOrd b) b x hxm
    have hby := mem_bucketContrib splits ds N P (bucketOrd b2) b2 y hym
    exact bucketIdx_mono splits P hlen x y (by rw [hbx, hby]; exact hbb)

/-! ### Schedule independence -/

/-- The whole observable run result is independent of the thread
interleavings: the sample pool is sorted before any splitter is taken from
it, and every bucket is sorted before becoming a final chunk, so neither
the pool-append order nor the per-bucket contribution orders matter. -/
theorem runHSS_schedule_invariant (cfg : Config)
    (oracle : Int → Nat → List Int → List Int)
    (p1 p2 : List Nat) (b1 b2 : Nat → List Nat)
    (hp : p1 ~ p2) (hb : ∀ b, b < cfg.numWorkers → b1 b ~ b2 b) :
    runHSS cfg oracle p1 b1 = runHSS cfg oracle p2 b2 := by
  unfold runHSS
  have hpool : samplePool cfg.dataset cfg.totalElements cfg.numWorkers
        cfg.randomSeed oracle p1
      ~ samplePool cfg.dataset cfg.totalElements cfg.numWorkers
        cfg.randomSeed oracle p2 := (hp.map _).flatten
  have hls : leaderSelect (samplePool cfg.dataset cfg.totalElements cfg.numWorkers
        cfg.randomSeed oracle p1) cfg.numWorkers
      = leaderSelect (samplePool cfg.dataset cfg.totalElements cfg.numWorkers
        cfg.randomSeed oracle p2) cfg.numWorkers := by
    unfold leaderSelect
    rw [sortI_eq_of_perm hpool]
  have hfin : ∀ splits, finalsOf cfg splits b1 = finalsOf cfg splits b2 := by
    intro splits
    unfold finalsOf
    apply List.map_congr_left
    intro b hbmem
    unfold finalChunk
    apply sortI_eq_of_perm
    exact ((hb b (List.mem_range.mp hbmem)).map _).flatten
  rw [hls]
  congr 1
  funext splits
  rw [hfin splits]

/-! ### The claims -/

/-- C1 (counterexample to the claim as stated): with two workers and the
empty dataset (`N = 0`), the sample pool is empty, the leader's padding
loop calls `back()` on an empty vector, and the run aborts with undefined
behaviour before any final chunk exists -- so no concatenation permutation
of the input is produced. -/
theorem claim1_counterexample :
    runHSS ⟨2, 0, 0, false, [], 0⟩ (fun _ _ _ => []) [0, 1] (fun _ => [0, 1])
      = none := rfl

/-- C1 (amended): for every worker count `P ≥ 1` and every *non-empty*
dataset (or `P = 1`), the run completes and concatenating the workers'
final chunks in worker-id order yields a permutation of the input
dataset.  The draw oracle is only required to return the number of
elements `std::sample` is specified to select. -/
theorem claim1_amended (cfg : Config) (oracle : Int → Nat → List Int → List Int)
    (poolOrd : List Nat) (bucketOrd : Nat → List Nat)
    (hP : 1 ≤ cfg.numWorkers) (hN : cfg.totalElements = cfg.dataset.length)
    (hds : cfg.dataset ≠ [] ∨ cfg.numWorkers = 1)
    (hpool : poolOrd ~ List.range cfg.numWorkers)
    (hbord : ∀ b, b < cfg.numWorkers → bucketOrd b ~ List.range cfg.numWorkers)
    (hdraw : ∀ w c, 10 * cfg.numWorkers ≤ c.length →
      (oracle cfg.randomSeed w c).length = 10 * cfg.numWorkers) :
    ∃ r, runHSS cfg oracle poolOrd bucketOrd = some r
      ∧ r.concatOutput ~ cfg.dataset := by
  have hpoolne : samplePool cfg.dataset cfg.totalElements cfg.numWorkers
      cfg.randomSeed oracle poolOrd ≠ [] ∨ cfg.numWorkers = 1 := by
    rcases hds with hds | h1
    · left
      rw [hN]
      exact samplePool_ne_nil _ _ _ _ _ hP hds hpool hdraw
    · right; exact h1
  obtain ⟨sp, hsp, _⟩ := leaderSelect_some _ _ hP hpoolne
  unfold runHSS
  rw [hsp, Option.map_some']
  refine ⟨_, rfl, ?_⟩
  show (finalsOf cfg sp bucketOrd).flatten ~ cfg.dataset
  unfold finalsOf
  rw [hN]
  exact finals_flatten_perm sp cfg.dataset cfg.numWorkers hP bucketOrd hbord

/-- C1 witness. -/
theorem claim1_witness :
    ∃ r, runHSS ⟨2, 0, 4, false, [9, 4, 16, 1], 0⟩ (fun _ _ c => c.take 20)
        [0, 1] (fun _ => [0, 1]) = some r
      ∧ r.concatOutput ~ [9, 4, 16, 1] :=
  claim1_amended _ _ _ _ (by decide) (by decide) (Or.inl (by decide))
    (by decide) (fun b _ => by decide)
    (fun w c h => by
      have h2 : (20 : Nat) ≤ c.length := h
      show (c.take 20).length = 20
      simp [List.length_take]
      omega)

/-- C2: for every worker count `P ≥ 1`, whenever the run produces final
chunks, their concatenation in worker-id order is non-decreasing
end-to-end.  This holds for *any* draw oracle and any interleaving: the
leader publishes a splitter list of length exactly `P - 1`, each final
chunk is sorted by Phase 4, and all elements of bucket `b` precede (in
value) all elements of any bucket with a larger index. -/
theorem claim2_sorted (cfg : Config) (oracle : Int → Nat → List Int → List Int)
    (poolOrd : List Nat) (bucketOrd : Nat → List Nat)
    (hP : 1 ≤ cfg.numWorkers) (r : RunResult)
    (h : runHSS cfg oracle poolOrd bucketOrd = some r) :
    r.concatOutput.Sorted (· ≤ ·) := by
  unfold runHSS at h
  cases hls : leaderSelect (samplePool cfg.dataset cfg.totalElements cfg.numWorkers
      cfg.randomSeed oracle poolOrd) cfg.numWorkers with
  | none =>
    rw [hls] at h
    exact absurd h (by simp)
  | some sp =>
    rw [hls, Option.map_some'] at h
    have hlen := leaderSelect_length _ _ hP sp hls
    have hr := (Option.some.inj h).symm
    rw [hr]
    show ((finalsOf cfg sp bucketOrd).flatten).Sorted (· ≤ ·)
    unfold finalsOf
    exact finals_flatten_sorted sp cfg.dataset cfg.totalElements cfg.numWorkers
      hlen bucketOrd

/-- C2 witness. -/
theorem claim2_witness :
    (RunResult.mk [9] [[1, 4], [9, 16]] [1, 4, 9, 16]
        (ValidateOut.mk 0 none (some "Sorted correctly!"))).concatOutput.Sorted
        (· ≤ ·) :=
  claim2_sorted ⟨2, 0, 4, false, [9, 4, 16, 1], 0⟩ (fun _ _ c => c.take 20)
    [0, 1] (fun _ => [0, 1]) (by decide) _ (by rfl)

/-- C3 (code bug): on an empty sample pool (which happens exactly when the
dataset is empty) with `P = 2` workers, leader selection does not produce
a padded splitter sequence of length `P - 1`: the selection for-loop
pushes nothing, and the padding while-loop immediately calls `back()` on
an empty vector -- an out-of-range access of an empty sequence, contrary
to the claim. -/
theorem claim3_crash : leaderSelect [] 2 = none := rfl

/-- C4: every splitter computed by the selection for-loop equals the
element of the sorted sample pool at the nearest-rank position
`i * step`, `step = pool_size / P`: whenever leader selection publishes a
splitter sequence and `i * step` is in range for `1 ≤ i ≤ P - 1`, the
published splitter `i - 1` is the sorted pool's element at `i * step`. -/
theorem claim4_nearest_rank (pool : List Int) (P : Nat) (sp : List Int)
    (h : leaderSelect pool P = some sp) (i : Nat) (h1 : 1 ≤ i) (hiP : i < P)
    (hrange : i * (pool.length / P) < pool.length) :
    sp[i - 1]? = (sortI pool)[i * (pool.length / P)]? :=
  leaderSelect_getElem pool P sp h i h1 hiP hrange

/-- C4 witness: pool of size 10, `P = 3`, `step = 3`; splitter 0 is the
sorted pool's element at position 3. -/
theorem claim4_witness :
    ([(3 : Int), 6])[1 - 1]?
      = (sortI [5, 3, 8, 1, 9, 2, 7, 4, 6, 0])[1 * (([(5 : Int), 3, 8, 1, 9, 2, 7, 4, 6, 0]).length / 3)]? :=
  claim4_nearest_rank [5, 3, 8, 1, 9, 2, 7, 4, 6, 0] 3 [3, 6] (by rfl) 1
    (by decide) (by decide) (by decide)

/-- C5 (counterexample to the claim as stated): final chunks `[[2], [1]]`
with dataset `[1, 2]` concatenate to `[2, 1]`: a permutation of the input
that is *not* sorted, yet the validator prints the success message (it
sorts the concatenation before comparing, so it never checks sortedness
of the concatenation itself) and the exit code is 0. -/
theorem claim5_counterexample :
    (collectValidate [[2], [1]] [1, 2] 2).validationMsg = some "Sorted correctly!"
      ∧ ¬ (([(2 : Int), 1]).Sorted (· ≤ ·))
      ∧ (collectValidate [[2], [1]] [1, 2] 2).exitCode = 0 := by
  refine ⟨rfl, ?_, rfl⟩
  decide

/-- C5 (amended): when the element count matches, the validator prints
the failure message iff the concatenation of the final chunks is not a
permutation (multiset-equal) of the input dataset; sortedness of the
concatenation is not checked separately (both sides are sorted before the
comparison), and the exit code is 0 whether or not the message reports a
failure. -/
theorem claim5_amended (chunks : List (List Int)) (ds : List Int) (N : Nat)
    (hcnt : (chunks.map List.length).sum = N) :
    ((collectValidate chunks ds N).validationMsg = some "Sorting failed!"
      ↔ ¬ (chunks.flatten ~ ds))
    ∧ (collectValidate chunks ds N).exitCode = 0 := by
  unfold collectValidate
  rw [if_neg (by omega)]
  refine ⟨⟨?_, ?_⟩, rfl⟩
  · intro h hperm
    rw [if_pos (sortI_eq_of_perm hperm)] at h
    exact absurd (Option.some.inj h) (by decide)
  · intro hnp
    show some (if _ then _ else _) = _
    rw [if_neg (fun hc => hnp (sortI_eq_iff_perm.mp hc))]

/-- C5 witness. -/
theorem claim5_witness :
    ((collectValidate [[2], [1]] [1, 2] 2).validationMsg = some "Sorting failed!"
      ↔ ¬ (([[2], [1]] : List (List Int)).flatten ~ [1, 2]))
    ∧ (collectValidate [[2], [1]] [1, 2] 2).exitCode = 0 :=
  claim5_amended [[2], [1]] [1, 2] 2 (by decide)

/-- C6 (code bug): with dataset size 0 and two workers the program does
crash: every chunk is empty, the sample pool is empty, and the leader's
padding loop performs an out-of-range `back()` on the empty splitters
vector (undefined behaviour), so the run aborts instead of reporting a
count match and a trivially sorted result.  (For `1 ≤ N < P` the pool is
non-empty -- the last worker owns all `N` elements -- and no such access
occurs, so the claim's remaining scenarios do hold.) -/
theorem claim6_crash :
    runHSS ⟨2, 7, 0, false, [], 1⟩ (fun _ _ c => c.take 20) [0, 1] (fun _ => [0, 1])
      = none := rfl

/-- C7 (counterexample to the claim as stated): with a surplus of
elements (final chunks hold 2 elements, input size 1) the integrity
message does not report the absolute difference 1: the `size_t`
subtraction wraps around and it reports 2^64 - 1. -/
theorem claim7_counterexample :
    (collectValidate [[5], [6]] [5] 1).reportedLost = some 18446744073709551615
      ∧ (18446744073709551615 : Nat) ≠ 1 := by
  refine ⟨rfl, by decide⟩

/-- C7 (amended): when the total element count across final chunks
differs from the input size `N`, the program reports
`(N - counted) mod 2^64` and exits with status 1 -- the exact count for a
deficit, but a wrapped-around value (not the absolute difference) for a
surplus; when the counts agree no integrity error is reported and the
exit code is 0. -/
theorem claim7_amended (chunks : List (List Int)) (ds : List Int) (N : Nat)
    (hN : N < 2 ^ 64) (hc : (chunks.map List.length).sum < 2 ^ 64) :
    ((chunks.map List.length).sum ≠ N →
      (collectValidate chunks ds N).exitCode = 1
      ∧ (collectValidate chunks ds N).reportedLost
          = some (lostCount N ((chunks.map List.length).sum))
      ∧ ((chunks.map List.length).sum < N →
          lostCount N ((chunks.map List.length).sum)
            = N - (chunks.map List.length).sum)
      ∧ (N < (chunks.map List.length).sum →
          lostCount N ((chunks.map List.length).sum)
            = 2 ^ 64 - ((chunks.map List.length).sum - N)))
    ∧ ((chunks.map List.length).sum = N →
      (collectValidate chunks ds N).exitCode = 0
      ∧ (collectValidate chunks ds N).reportedLost = none) := by
  constructor
  · intro hne
    unfold collectValidate
    rw [if_pos hne]
    refine ⟨rfl, rfl, ?_, ?_⟩
    · intro hlt
      unfold lostCount
      omega
    · intro hgt
      unfold lostCount
      omega
  · intro heq
    unfold collectValidate
    rw [if_neg (by omega)]
    exact ⟨rfl, rfl⟩

/-- C7 witness (deficit case: one element lost out of three). -/
theorem claim7_witness :
    ((([[5], [6]] : List (List Int)).map List.length).sum ≠ 3 →
      (collectValidate [[5], [6]] [5, 6, 7] 3).exitCode = 1
      ∧ (collectValidate [[5], [6]] [5, 6, 7] 3).reportedLost
          = some (lostCount 3 ((([[5], [6]] : List (List Int)).map List.length).sum))
      ∧ ((([[5], [6]] : List (List Int)).map List.length).sum < 3 →
          lostCount 3 ((([[5], [6]] : List (List Int)).map List.length).sum)
            = 3 - (([[5], [6]] : List (List Int)).map List.length).sum)
      ∧ (3 < (([[5], [6]] : List (List Int)).map List.length).sum →
          lostCount 3 ((([[5], [6]] : List (List Int)).map List.length).sum)
            = 2 ^ 64 - ((([[5], [6]] : List (List Int)).map List.length).sum - 3)))
    ∧ ((([[5], [6]] : List (List Int)).map List.length).sum = 3 →
      (collectValidate [[5], [6]] [5, 6, 7] 3).exitCode = 0
      ∧ (collectValidate [[5], [6]] [5, 6, 7] 3).reportedLost = none) :=
  claim7_amended [[5], [6]] [5, 6, 7] 3 (by decide) (by decide)

/-- C8: determinism.  For a fixed seed, fixed `P` and the same dataset
(one `Config`) and a fixed seeded draw, any two thread interleavings --
any order of appends to the shared sample pool and any per-bucket append
orders -- produce identical splitters, identical per-worker final chunks,
identical concatenated output, and identical validation outcome. -/
theorem claim8_deterministic (cfg : Config)
    (oracle : Int → Nat → List Int → List Int)
    (p1 p2 : List Nat) (b1 b2 : Nat → List Nat)
    (hp1 : p1 ~ List.range cfg.numWorkers) (hp2 : p2 ~ List.range cfg.numWorkers)
    (hb : ∀ b, b < cfg.numWorkers → b1 b ~ b2 b) :
    runHSS cfg oracle p1 b1 = runHSS cfg oracle p2 b2 :=
  runHSS_schedule_invariant cfg oracle p1 p2 b1 b2 (hp1.trans hp2.symm) hb

/-- C8 witness: opposite append orders for the pool and for every bucket
give the same run result. -/
theorem claim8_witness :
    runHSS ⟨2, 0, 4, false, [9, 4, 16, 1], 0⟩ (fun _ _ c => c.take 20)
        [0, 1] (fun _ => [0, 1])
      = runHSS ⟨2, 0, 4, false, [9, 4, 16, 1], 0⟩ (fun _ _ c => c.take 20)
        [1, 0] (fun _ => [1, 0]) :=
  claim8_deterministic _ _ _ _ _ _ (by decide) (by decide) (fun b _ => by decide)

/-- C9: the imbalance-tolerance parameter `ε` (`max_imbalance`) is parsed
into the configuration but never read afterwards: two runs identical
except for the imbalance argument produce identical observable results
(splitters, final chunks, concatenated output, validation outcome and
exit code). -/
theorem claim9_imbalance_unused (cfg : Config) (e1 e2 : Rat)
    (oracle : Int → Nat → List Int → List Int)
    (poolOrd : List Nat) (bucketOrd : Nat → List Nat) :
    runHSS { cfg with maxImbalance := e1 } oracle poolOrd bucketOrd
      = runHSS { cfg with maxImbalance := e2 } oracle poolOrd bucketOrd := rfl

/-- C10: the partition step is total and lossless for any splitter list
whatsoever (empty, unsorted, or with duplicates): every chunk element is
assigned a bucket index in `[0, P-1]` (the upper-bound position clamped
into range), and the buckets taken together are a permutation of the
chunk -- nothing is lost or duplicated by partitioning. -/
theorem claim10_partition_total (splits : List Int) (P : Nat) (hP : 1 ≤ P)
    (chunk : List Int) :
    (∀ v ∈ chunk, bucketIdx splits P v < P)
      ∧ ((List.range P).map (localBucket splits P chunk)).flatten ~ chunk :=
  ⟨fun v _ => bucketIdx_lt splits P hP v, buckets_flatten_perm splits P hP chunk⟩

/-- C10 witness, with an unsorted splitter list containing duplicates. -/
theorem claim10_witness :
    (∀ v ∈ [(1 : Int), 2, 3, 4], bucketIdx [3, 2, 2] 4 v < 4)
      ∧ ((List.range 4).map (localBucket [3, 2, 2] 4 [1, 2, 3, 4])).flatten
          ~ [1, 2, 3, 4] :=
  claim10_partition_total [3, 2, 2] 4 (by decide) [1, 2, 3, 4]

end HSS
